import Mathlib

/-!
Verification of the site-check service (src/main.go) against its
specification.

The Go code is shallowly embedded as follows.

* A Go string is modelled as a list of Unicode scalar values
  (`GoStr := List Char`).  Go's `len(s)` counts UTF-8 bytes, so it is
  modelled by `goLen` (the sum of the UTF-8 sizes of the characters),
  not by `List.length`.
* Byte-wise slicing `s[:n]` (the 20000/180/2 MiB truncations) is
  modelled by `takeBytes n`, the longest character prefix whose UTF-8
  size fits in `n` bytes.  When the byte offset `n` falls inside a
  multi-byte character Go keeps that character's leading bytes while
  `takeBytes` drops the whole character; both results use at most `n`
  bytes.
* `strings.ToLower` is modelled rune-wise by `lowerChar`, restricted to
  the ASCII and Cyrillic alphabets (the only alphabets appearing in the
  program's vocabulary and output language); every other character is
  left unchanged.
* `strings.TrimSpace` / `strings.Fields` use Go's `unicode.IsSpace`,
  modelled exactly by `isSpaceGo` (Latin-1 white space plus the Unicode
  White_Space code points).
* The goquery HTML parsing and element selection is an external
  library; its result is modelled by the `Doc` structure: the text of
  the first `title` element, the `content` attribute (if present) of
  each `meta[name="description"]` element in document order, and the
  text of each `h1, h2, h3, p, li` element in document order, all
  taken after the structural removal of script/style/nav/... subtrees.
  A parse failure is `Option.none`.
* The network transport and the AI collaborator are external; the AI
  call's outcome is abstracted as `Option (summary, keywords,
  negative keywords)` where `none` stands for any error result of
  `summarizeWithAI` (transport error, timeout, no choices, empty
  content), and `fetchHTML` is modelled from the point where the
  response status and body are available.
* The float comparison `float64(non)/float64(letters+1) > 0.7` is
  modelled by the exact rational comparison `10*non > 7*(letters+1)`;
  the two agree for all counts below about `9*10^15`, far beyond the
  2 MiB fetch cap.
-/

/-- A Go string: the list of its Unicode scalar values. -/
abbrev GoStr := List Char

/-- Embed a Lean string literal as a `GoStr`. -/
def fromS (s : String) : GoStr := s.toList

/-- Go's `len(s)`: the UTF-8 byte length of the string. -/
def goLen (s : GoStr) : Nat := (s.map Char.utf8Size).sum

/-- Go's `unicode.IsSpace`: Latin-1 white space (TAB, LF, VT, FF, CR,
SP, NEL, NBSP) plus the Unicode White_Space code points outside
Latin-1. -/
def isSpaceGo (c : Char) : Bool :=
  decide ((9 ≤ c.toNat ∧ c.toNat ≤ 13) ∨ c.toNat = 32 ∨ c.toNat = 133 ∨ c.toNat = 160 ∨
    c.toNat = 5760 ∨ (8192 ≤ c.toNat ∧ c.toNat ≤ 8202) ∨ c.toNat = 8232 ∨ c.toNat = 8233 ∨
    c.toNat = 8239 ∨ c.toNat = 8287 ∨ c.toNat = 12288)

/-- Drop the leading white space of a string. -/
def trimLeft (s : GoStr) : GoStr := s.dropWhile isSpaceGo

/-- Drop the trailing white space of a string. -/
def trimRight (s : GoStr) : GoStr := (s.reverse.dropWhile isSpaceGo).reverse

/-- Go's `strings.TrimSpace`. -/
def goTrim (s : GoStr) : GoStr := trimRight (trimLeft s)

/-- Go's `unicode.ToLower`, restricted to ASCII (`A`–`Z`) and Cyrillic
(`А`–`Я` and `Ё`); all other characters are left unchanged. -/
def lowerChar (c : Char) : Char :=
  if 65 ≤ c.toNat ∧ c.toNat ≤ 90 then Char.ofNat (c.toNat + 32)
  else if 1040 ≤ c.toNat ∧ c.toNat ≤ 1071 then Char.ofNat (c.toNat + 32)
  else if c.toNat = 1025 then Char.ofNat 1105
  else c

/-- Go's `strings.ToLower` (rune-wise). -/
def goToLower (s : GoStr) : GoStr := s.map lowerChar

/-- Go's `strings.Contains`: `sub` occurs as a contiguous substring of
`s` (every string contains the empty string). -/
def containsSub (s sub : GoStr) : Bool := s.tails.any (fun t => sub.isPrefixOf t)

/-- Byte-wise truncation `s[:n]` on a character boundary: the longest
character prefix of `s` whose UTF-8 size is at most `n` bytes. -/
def takeBytes : Nat → GoStr → GoStr
  | _, [] => []
  | n, c :: rest => if c.utf8Size ≤ n then c :: takeBytes (n - c.utf8Size) rest else []

/-- Accumulator loop of `goFields`: `cur` holds the characters of the
current field in reverse order. -/
def fieldsAux : GoStr → GoStr → List GoStr
  | [], cur => if cur = [] then [] else [cur.reverse]
  | c :: rest, cur =>
    if isSpaceGo c then
      if cur = [] then fieldsAux rest [] else cur.reverse :: fieldsAux rest []
    else fieldsAux rest (c :: cur)

/-- Go's `strings.Fields`: the maximal runs of non-white-space
characters, in order. -/
def goFields (s : GoStr) : List GoStr := fieldsAux s []

/-! ## src/main.go, `fetchHTML` (lines 186–208)

Modelled from the point where the HTTP response is available: the
status line check and the body read through
`io.ReadAll(io.LimitReader(res.Body, 2<<20))`, which reads at most
2 MiB of the body and succeeds even when the body is longer. -/

/-- Lines 199–207 of src/main.go: reject a non-2xx status, otherwise
return the body capped at `2<<20` bytes. -/
def fetchHTML (status : Nat) (body : GoStr) : Except GoStr GoStr :=
  if status < 200 ∨ 300 ≤ status then Except.error (fromS "non-2xx status")
  else Except.ok (takeBytes 2097152 body)

/-! ## src/main.go, `extractVisibleText` (lines 212–281) -/

/-- The goquery view of a successfully parsed page, after the
structural removal of
`script, style, noscript, nav, header, footer, template, svg, iframe, aside`
subtrees (line 219): the text of the first `title` element (`[]` when
there is none), the `content` attribute of each
`meta[name="description"]` element in document order (`none` when the
element has no such attribute), and the text of each
`h1, h2, h3, p, li` element in document order. -/
structure Doc where
  title : GoStr
  metas : List (Option GoStr)
  elems : List GoStr

/-- Lines 224–228 of src/main.go: the `Each` loop over the
`meta[name="description"]` elements; each element that has a `content`
attribute overwrites `metaDesc` with its trimmed value, so the last
such element wins. -/
def lastMetaDesc (metas : List (Option GoStr)) : GoStr :=
  metas.foldl (fun acc m => match m with | some v => goTrim v | none => acc) []

/-- Lines 230–234 of src/main.go: the `clean` closure — trim, then
collapse every white-space run to a single space. -/
def clean (s : GoStr) : GoStr := List.intercalate [' '] (goFields (goTrim s))

/-- Counting loop of lines 250–256: the accumulator is
`(non, letters)`, one step per rune of the lower-cased fragment. -/
def densityStep (acc : Nat × Nat) (r : Char) : Nat × Nat :=
  if (97 ≤ r.toNat ∧ r.toNat ≤ 122) ∨ (1072 ≤ r.toNat ∧ r.toNat ≤ 1103) ∨ r.toNat = 1105 then
    (acc.1, acc.2 + 1)
  else if r ≠ ' ' then (acc.1 + 1, acc.2)
  else acc

/-- Lines 249–257 of src/main.go: the letter-density check of the
`isNoisy` closure, on the already lower-cased fragment.  The float
comparison `float64(non)/float64(letters+1) > 0.7` is modelled by the
exact rational comparison (see the header). -/
def densityNoisy (ls : GoStr) : Bool :=
  let counts := ls.foldl densityStep (0, 0)
  decide (0 < counts.2 ∧ 7 * (counts.2 + 1) < 10 * counts.1)

/-- Lines 236–258 of src/main.go: the `isNoisy` closure. -/
def isNoisy (s : GoStr) : Bool :=
  let ls := goToLower s
  if containsSub ls (fromS "\x7b") && containsSub ls (fromS "\x7d") then true
  else if containsSub ls (fromS "[") && containsSub ls (fromS "]") then true
  else if containsSub ls (fromS "widgets") || containsSub ls (fromS "cookie") ||
      containsSub ls (fromS "tracking") then true
  else densityNoisy ls

/-- The letter set of the density check on an already lower-cased
rune: `a`–`z`, `а`–`я`, or `ё` (line 251). -/
def letterLC (r : Char) : Bool :=
  decide ((97 ≤ r.toNat ∧ r.toNat ≤ 122) ∨ (1072 ≤ r.toNat ∧ r.toNat ≤ 1103) ∨ r.toNat = 1105)

/-- Claim-side count for C9 (stated from the claim's words, to be
compared with `densityNoisy`): the letters of the fragment, counted
case-insensitively. -/
def lettersCI (s : GoStr) : Nat := (s.filter (fun c => letterLC (lowerChar c))).length

/-- Claim-side count for C9 (stated from the claim's words): the
characters of the fragment that are neither letters
(case-insensitively) nor the space character. -/
def nonSpaceNonLetterCI (s : GoStr) : Nat :=
  (s.filter (fun c => !letterLC (lowerChar c) && decide (c ≠ ' '))).length

/-- Lines 212–281 of src/main.go: `extractVisibleText` on the parsed
document (`none` models a goquery parse failure, which yields `""`). -/
def extractVisibleText (doc? : Option Doc) : GoStr :=
  match doc? with
  | none => []
  | some doc =>
    let title := goTrim doc.title
    let metaDesc := lastMetaDesc doc.metas
    let parts :=
      (if title ≠ [] ∧ isNoisy title = false then [clean title] else []) ++
      (if metaDesc ≠ [] ∧ isNoisy metaDesc = false then [clean metaDesc] else []) ++
      (doc.elems.map clean).filter (fun t => t ≠ [] && !isNoisy t && 10 ≤ goLen t)
    let text := List.intercalate [' '] parts
    if 20000 < goLen text then takeBytes 20000 text else text

/-! ## src/main.go, `splitSentences` (lines 357–377) -/

/-- A sentence terminator as scanned on line 361. -/
def isTerm (c : Char) : Bool := c = '.' || c = '!' || c = '?' || c = '…'

/-- The scanning loop of `splitSentences`: `cur` holds the characters
of the current span in reverse order.  On a terminator the span
(terminator included) is trimmed and, when non-empty, emitted; the
trailing span is emitted the same way at the end of the input. -/
def splitGo : GoStr → GoStr → List GoStr
  | [], cur =>
    let tail := goTrim cur.reverse
    if tail = [] then [] else [tail]
  | c :: rest, cur =>
    if isTerm c then
      let part := goTrim (c :: cur).reverse
      if part = [] then splitGo rest [] else part :: splitGo rest []
    else splitGo rest (c :: cur)

/-- Lines 357–377 of src/main.go: `splitSentences`. -/
def splitSentences (s : GoStr) : List GoStr := splitGo s []

/-! ## src/main.go, `heuristicSummarize` (lines 285–354) -/

/-- The fixed label prefixed to every sentence/excerpt summary. -/
def summaryLabel : GoStr := fromS "Краткое описание по тексту сайта: "

/-- Lines 293–299 of src/main.go: the `hasAny` closure. -/
def hasAny (s : GoStr) (keys : List GoStr) : Bool := keys.any (fun k => containsSub s k)

/-- Lines 301–312 of src/main.go: the Tier-1 keyword switch on the
lower-cased text; `none` when no case matches. -/
def tier1 (l : GoStr) : Option GoStr :=
  if hasAny l [fromS "маркетплейс", fromS "продавцы", fromS "продавцов", fromS "отзывы",
        fromS "рейтинг"] &&
      hasAny l [fromS "товар", fromS "каталог", fromS "купить", fromS "цены", fromS "доставка"] then
    some (fromS "Маркетплейс: товары от разных продавцов.")
  else if hasAny l [fromS "яндекс маркет", fromS "market.yandex", fromS "яндекс‑маркет",
      fromS "yandex market"] then
    some (fromS "Маркетплейс: Яндекс Маркет (онлайн‑покупки).")
  else if hasAny l [fromS "каталог", fromS "товар", fromS "купить", fromS "заказать",
      fromS "цены", fromS "доставка", fromS "корзина"] then
    some (fromS "Интернет‑магазин (каталог товаров, покупки онлайн).")
  else if hasAny l [fromS "доставка еды", fromS "пицца", fromS "суши", fromS "роллы",
      fromS "бургер", fromS "заказ еды"] then
    some (fromS "Доставка готовой еды.")
  else if hasAny l [fromS "услуги", fromS "заказать услугу", fromS "портфолио",
      fromS "наши услуги"] then
    some (fromS "Сайт компании‑услугодателя.")
  else none

/-- Lines 315–328 of src/main.go: the `isNoisySent` closure.  The
length window is measured by Go's `len`, i.e. in UTF-8 bytes of the
lower-cased trimmed candidate. -/
def isNoisySent (s : GoStr) : Bool :=
  let ss := goToLower (goTrim s)
  if ss = [] then true
  else if containsSub ss (fromS "\x7b") || containsSub ss (fromS "\x7d") ||
      containsSub ss (fromS "widgets") then true
  else if goLen ss < 30 || 220 < goLen ss then true
  else false

/-- Byte index of the first sentence terminator (`strings.IndexAny`
on line 331 returns a byte offset; at the character level the offsets
`0` and `> 0` coincide, which is all lines 332–335 inspect). -/
def indexOfTerm : GoStr → Option Nat
  | [] => none
  | c :: rest => if isTerm c then some 0 else (indexOfTerm rest).map (· + 1)

/-- Lines 330–335 of src/main.go: the Tier-2 candidate.  The slice
`text[:end+1]` is modelled at character granularity: for the one-byte
terminators `.`, `!`, `?` this is exactly the Go slice; when the first
terminator is the three-byte `…`, Go keeps only its leading byte while
this model keeps the whole character. -/
def firstCand (text : GoStr) : GoStr :=
  match indexOfTerm text with
  | some i => if 0 < i then goTrim (text.take (i + 1)) else text
  | none => text

/-- Lines 285–354 of src/main.go: `heuristicSummarize`. -/
def heuristicSummarize (text : GoStr) : GoStr :=
  if text = [] then fromS "Информация о сайте не определена"
  else
    match tier1 (goToLower text) with
    | some m => m
    | none =>
      let cand := firstCand text
      if isNoisySent cand = false then summaryLabel ++ cand
      else
        match (splitSentences text).find? (fun s => !isNoisySent s) with
        | some s => summaryLabel ++ s
        | none =>
          let s0 := List.intercalate [' '] (goFields text)
          let s1 := if 180 < goLen s0 then takeBytes 180 s0 ++ [Char.ofNat 8230] else s0
          summaryLabel ++ s1

/-! ## src/main.go, `fallbackSummary` (lines 447–468) and the
`classifyHandler` logic after a successful fetch (lines 75–162) -/

/-- The goquery view taken by `fallbackSummary`, which re-parses the
raw markup without structural removal: the text of the first `title`
element and the `content` attribute of the first
`meta[name="description"]` element (`Selection.Attr` reads only the
first element of the selection). -/
structure FDoc where
  title : GoStr
  metaFirst : Option GoStr

/-- Lines 460–467 of src/main.go: the hostname tail of
`fallbackSummary`. -/
def fallbackHost (hostname host : GoStr) : GoStr :=
  let h := if hostname = [] then host else hostname
  if h ≠ [] then fromS "Сайт: " ++ h else fromS "Не удалось определить тематику сайта"

/-- Lines 447–468 of src/main.go: `fallbackSummary` (`none` models a
parse failure, which skips straight to the hostname tail). -/
def fallbackSummary (fdoc? : Option FDoc) (hostname host : GoStr) : GoStr :=
  match fdoc? with
  | some d =>
    let t := goTrim d.title
    if t ≠ [] then summaryLabel ++ t
    else
      match d.metaFirst with
      | some md0 =>
        let md := goTrim md0
        if md ≠ [] then summaryLabel ++ md else fallbackHost hostname host
      | none => fallbackHost hostname host
  | none => fallbackHost hostname host

/-- The JSON envelope of lines 25–31 of src/main.go. -/
structure ClassifyResponse where
  summary : GoStr
  lang : GoStr
  source : GoStr
  keywords : List GoStr
  negativeKeywords : List GoStr

/-- Outcome of a `summarizeWithAI` call: `none` for any error return
(transport error, timeout, no choices, empty content), otherwise the
returned summary and keyword lists.  The test of line 132 (`aiErr !=
nil || strings.TrimSpace(sum) == ""`) holds exactly when this is
`true`. -/
def aiFailedOrBlank (outcome : Option (GoStr × List GoStr × List GoStr)) : Bool :=
  match outcome with
  | none => true
  | some (s0, _, _) => decide (goTrim s0 = [])

/-- Lines 75–162 of src/main.go: `classifyHandler` after a successful
fetch.  `doc?` is the parse used by `extractVisibleText`, `fdoc?` the
independent parse used by `fallbackSummary` (both of the same fetched
markup), `hostname`/`host` come from the request URL, and
`shortAI`/`longAI` are the outcomes of the `summarizeWithAI` call on
the low-text and the normal path. -/
def handlerAfterFetch (doc? : Option Doc) (fdoc? : Option FDoc) (hostname host : GoStr)
    (useAI : Bool) (shortAI longAI : Option (GoStr × List GoStr × List GoStr)) :
    ClassifyResponse :=
  let text := extractVisibleText doc?
  if goLen (goTrim text) < 40 then
    let brief := fallbackSummary fdoc? hostname host
    let heurResp : ClassifyResponse :=
      { summary := if goTrim brief = [] then fromS "Веб-сайт компании/сервиса " ++ hostname
          else brief
        lang := fromS "ru", source := fromS "heuristic"
        keywords := [], negativeKeywords := [] }
    if useAI then
      match shortAI with
      | some (s0, kws, negs) =>
        if goTrim s0 ≠ [] then
          { summary := s0, lang := fromS "ru", source := fromS "ai"
            keywords := kws, negativeKeywords := negs }
        else heurResp
      | none => heurResp
    else heurResp
  else
    let tr :=
      if useAI then
        match longAI with
        | some (s0, kk, nn) =>
          if goTrim s0 = [] then
            (heuristicSummarize text, fromS "heuristic", ([] : List GoStr), ([] : List GoStr))
          else (s0, fromS "ai", kk, nn)
        | none => (heuristicSummarize text, fromS "heuristic", ([] : List GoStr), ([] : List GoStr))
      else (heuristicSummarize text, fromS "heuristic", ([] : List GoStr), ([] : List GoStr))
    let finalSummary :=
      if goTrim tr.1 = [] then
        let fb := fallbackSummary fdoc? hostname host
        if goTrim fb = [] then fromS "Не удалось определить тематику сайта" else fb
      else tr.1
    { summary := finalSummary, lang := fromS "ru", source := tr.2.1
      keywords := tr.2.2.1, negativeKeywords := tr.2.2.2 }

/-! ## General lemmas about the string model -/

theorem toNat_charOfNat (n : Nat) (h : n < 55296) : (Char.ofNat n).toNat = n := by
  have hv : n.isValidChar := Or.inl h
  unfold Char.ofNat
  rw [dif_pos hv]
  simp [Char.ofNatAux, Char.toNat, UInt32.toNat, BitVec.toNat_ofNatLt]

theorem goLen_append (a b : GoStr) : goLen (a ++ b) = goLen a + goLen b := by
  simp [goLen]

theorem goLen_replicate (n : Nat) (c : Char) : goLen (List.replicate n c) = n * c.utf8Size := by
  induction n with
  | zero => simp [goLen]
  | succ k ih =>
    simp only [List.replicate_succ, goLen, List.map_cons, List.sum_cons] at ih ⊢
    rw [ih, Nat.succ_mul]
    omega

theorem goLen_takeBytes (n : Nat) (s : GoStr) : goLen (takeBytes n s) ≤ n := by
  induction s generalizing n with
  | nil => simp [takeBytes, goLen]
  | cons c rest ih =>
    unfold takeBytes
    split
    · rename_i h
      have h2 := ih (n - c.utf8Size)
      simp only [goLen, List.map_cons, List.sum_cons] at h2 ⊢
      omega
    · simp [goLen]

theorem mem_dropWhile_of_mem {p : Char → Bool} {l : GoStr} {c : Char}
    (hc : c ∈ l) (hp : p c = false) : c ∈ l.dropWhile p := by
  induction l with
  | nil => cases hc
  | cons a t ih =>
    by_cases ha : p a
    · rw [List.dropWhile_cons_of_pos ha]
      rcases List.mem_cons.mp hc with rfl | h
      · rw [ha] at hp; cases hp
      · exact ih h
    · rw [List.dropWhile_cons_of_neg ha]
      exact hc

theorem trim_ne_nil_of_mem {l : GoStr} {c : Char}
    (hc : c ∈ l) (hs : isSpaceGo c = false) : goTrim l ≠ [] := by
  have h1 : c ∈ trimLeft l := mem_dropWhile_of_mem hc hs
  have h2 : c ∈ (trimLeft l).reverse.dropWhile isSpaceGo :=
    mem_dropWhile_of_mem (List.mem_reverse.mpr h1) hs
  have h3 : (trimLeft l).reverse.dropWhile isSpaceGo ≠ [] := List.ne_nil_of_mem h2
  unfold goTrim trimRight
  simpa using h3

theorem dropWhile_dropWhile (p : Char → Bool) (l : GoStr) :
    (l.dropWhile p).dropWhile p = l.dropWhile p := by
  induction l with
  | nil => rfl
  | cons a t ih =>
    by_cases ha : p a
    · rw [List.dropWhile_cons_of_pos ha, ih]
    · rw [List.dropWhile_cons_of_neg ha, List.dropWhile_cons_of_neg ha]

theorem dropWhile_nil_or_head (p : Char → Bool) (l : GoStr) :
    l.dropWhile p = [] ∨ ∃ a t, l.dropWhile p = a :: t ∧ p a = false := by
  induction l with
  | nil => exact Or.inl rfl
  | cons a t ih =>
    by_cases ha : p a
    · rw [List.dropWhile_cons_of_pos ha]; exact ih
    · rw [List.dropWhile_cons_of_neg ha]
      exact Or.inr ⟨a, t, rfl, Bool.of_not_eq_true ha⟩

theorem trimRight_isPrefix (l : GoStr) : trimRight l <+: l := by
  have h : (l.reverse.dropWhile isSpaceGo).reverse <+: l.reverse.reverse :=
    List.reverse_prefix.mpr (List.dropWhile_suffix _)
  simpa [trimRight] using h

theorem trimRight_trimRight (l : GoStr) : trimRight (trimRight l) = trimRight l := by
  unfold trimRight
  rw [List.reverse_reverse, dropWhile_dropWhile]

theorem trimLeft_goTrim (l : GoStr) : trimLeft (goTrim l) = goTrim l := by
  unfold goTrim
  rcases dropWhile_nil_or_head isSpaceGo l with h | ⟨a, t, h, ha⟩
  · unfold trimLeft at *
    rw [h]
    rfl
  · have hy : trimLeft l = a :: t := h
    have hpre := trimRight_isPrefix (trimLeft l)
    cases heq : trimRight (trimLeft l) with
    | nil => rfl
    | cons b u =>
      rw [heq] at hpre
      rcases hpre with ⟨w, hw⟩
      rw [hy] at hw
      have hb : b = a := by
        have := congrArg (List.head? ·) hw
        simpa using this
      subst hb
      unfold trimLeft
      rw [List.dropWhile_cons_of_neg (by rw [ha]; exact Bool.false_ne_true)]

theorem goTrim_idem (l : GoStr) : goTrim (goTrim l) = goTrim l := by
  have h1 : goTrim (goTrim l) = trimRight (trimLeft (goTrim l)) := rfl
  rw [h1, trimLeft_goTrim]
  show trimRight (trimRight (trimLeft l)) = goTrim l
  rw [trimRight_trimRight]
  rfl

/-! ## C3: the extracted text is at most 20000 bytes -/

theorem goLen_truncate20000 (t : GoStr) :
    goLen (if 20000 < goLen t then takeBytes 20000 t else t) ≤ 20000 := by
  split
  · exact goLen_takeBytes _ _
  · omega

/-- C3: for every parsed document (and for a parse failure), the
output of `extractVisibleText` has UTF-8 byte length at most 20000:
the joined fragment string is truncated byte-wise at offset 20000. -/
theorem extractVisibleText_goLen_le (doc? : Option Doc) :
    goLen (extractVisibleText doc?) ≤ 20000 := by
  cases doc? with
  | none => simp [extractVisibleText, goLen]
  | some d => exact goLen_truncate20000 _

/-! ## C4: bodies over the 2 MiB cap are truncated, not rejected -/

/-- C4 counterexample: a 2xx response whose body is one byte longer
than the 2 MiB cap still yields a successful (truncated) result —
`io.LimitReader` caps the read, it does not fail the fetch. -/
theorem fetchHTML_big_body_ok :
    (fetchHTML 200 (List.replicate 2097153 'a')).isOk = true ∧
      2097152 < goLen (List.replicate 2097153 'a') := by
  constructor
  · unfold fetchHTML
    rw [if_neg (by omega)]
    rfl
  · rw [goLen_replicate, show ('a').utf8Size = 1 from rfl]
    norm_num

/-- C4 (amended): for every 2xx status, `fetchHTML` succeeds and
returns the body truncated to at most `2<<20` bytes; an over-long body
never causes a failure. -/
theorem fetchHTML_ok_truncated (status : Nat) (body : GoStr)
    (h1 : 200 ≤ status) (h2 : status < 300) :
    fetchHTML status body = Except.ok (takeBytes 2097152 body) ∧
      goLen (takeBytes 2097152 body) ≤ 2097152 := by
  constructor
  · unfold fetchHTML
    rw [if_neg (by omega)]
  · exact goLen_takeBytes _ _

/-- C4 amended-claim witness at a concrete input. -/
theorem fetchHTML_ok_truncated_witness :
    fetchHTML 200 (fromS "ok body") = Except.ok (takeBytes 2097152 (fromS "ok body")) ∧
      goLen (takeBytes 2097152 (fromS "ok body")) ≤ 2097152 :=
  fetchHTML_ok_truncated 200 (fromS "ok body") (by omega) (by omega)

/-! ## C8: the last meta-description tag wins -/

/-- C8: whatever meta-description tags precede it, the retained
meta-description fragment of `extractVisibleText` is the trimmed
`content` value of the last tag that carries one (lines 224–228). -/
theorem lastMetaDesc_last_wins (ms : List (Option GoStr)) (v : GoStr) :
    lastMetaDesc (ms ++ [some v]) = goTrim v := by
  simp [lastMetaDesc, List.foldl_append]

/-! ## C5, C10: `splitSentences` -/

theorem isTerm_nonspace {c : Char} (h : isTerm c = true) : isSpaceGo c = false := by
  simp only [isTerm, Bool.or_eq_true, decide_eq_true_eq] at h
  rcases h with ((rfl | rfl) | rfl) | rfl <;> decide

theorem splitGo_ne_nil (s : GoStr) : ∀ cur : GoStr,
    (∃ c, (c ∈ cur ∨ c ∈ s) ∧ isSpaceGo c = false) → splitGo s cur ≠ [] := by
  induction s with
  | nil =>
    rintro cur ⟨c, hc, hs⟩
    rcases hc with hcur | hmem
    · have hne : goTrim cur.reverse ≠ [] :=
        trim_ne_nil_of_mem (List.mem_reverse.mpr hcur) hs
      simp only [splitGo]
      rw [if_neg hne]
      simp
    · cases hmem
  | cons a rest ih =>
    rintro cur ⟨c, hc, hs⟩
    simp only [splitGo]
    cases hterm : isTerm a with
    | true =>
      rw [if_pos rfl]
      have hpart : goTrim ((a :: cur).reverse) ≠ [] :=
        trim_ne_nil_of_mem (List.mem_reverse.mpr (List.mem_cons_self a cur))
          (isTerm_nonspace hterm)
      rw [if_neg hpart]
      simp
    | false =>
      rw [if_neg Bool.false_ne_true]
      apply ih
      refine ⟨c, ?_, hs⟩
      rcases hc with hcur | hmem
      · exact Or.inl (List.mem_cons_of_mem _ hcur)
      · rcases List.mem_cons.mp hmem with rfl | h
        · exact Or.inl (List.mem_cons_self _ _)
        · exact Or.inr h

theorem splitGo_mem (s : GoStr) : ∀ cur t : GoStr,
    t ∈ splitGo s cur → t ≠ [] ∧ goTrim t = t := by
  induction s with
  | nil =>
    intro cur t ht
    simp only [splitGo] at ht
    split at ht
    · cases ht
    · rename_i h
      rcases List.mem_singleton.mp ht with rfl
      exact ⟨h, goTrim_idem _⟩
  | cons a rest ih =>
    intro cur t ht
    simp only [splitGo] at ht
    split at ht
    · split at ht
      · exact ih [] t ht
      · rename_i hpart
        rcases List.mem_cons.mp ht with rfl | h
        · exact ⟨hpart, goTrim_idem _⟩
        · exact ih [] t h
    · exact ih (a :: cur) t ht

/-- C5 counterexample: the one-space string is a non-empty input on
which `splitSentences` returns no sentence at all — the only span is
white space, so it is dropped after trimming. -/
theorem splitSentences_whitespace_empty :
    splitSentences (fromS " ") = [] ∧ fromS " " ≠ [] := by
  constructor
  · rfl
  · decide

/-- C5 (amended): every input containing at least one non-white-space
character produces at least one sentence.  (A non-empty but all-white
input produces none, see the counterexample.) -/
theorem splitSentences_ne_nil_of_nonspace (s : GoStr)
    (h : ∃ c ∈ s, isSpaceGo c = false) : splitSentences s ≠ [] := by
  obtain ⟨c, hc, hs⟩ := h
  exact splitGo_ne_nil s [] ⟨c, Or.inr hc, hs⟩

/-- C5 amended-claim witness at a concrete input. -/
theorem splitSentences_ne_nil_of_nonspace_witness :
    splitSentences (fromS "a") ≠ [] :=
  splitSentences_ne_nil_of_nonspace (fromS "a") ⟨'a', by decide, by decide⟩

/-- C10: every element of the sequence returned by `splitSentences`
is non-empty and has no leading or trailing white space (it equals its
own trim); the output never contains empty strings. -/
theorem splitSentences_mem_trimmed (s t : GoStr) (ht : t ∈ splitSentences s) :
    t ≠ [] ∧ goTrim t = t :=
  splitGo_mem s [] t ht

/-- C10 witness at a concrete input. -/
theorem splitSentences_mem_trimmed_witness :
    fromS "Hi there." ≠ [] ∧ goTrim (fromS "Hi there.") = fromS "Hi there." :=
  splitSentences_mem_trimmed (fromS "Hi there. Ok") (fromS "Hi there.") (by decide)

/-! ## C6: the Tier-2 first-sentence candidate -/

theorem indexOfTerm_append (pre post : GoStr) (c : Char)
    (hpre : ∀ a ∈ pre, isTerm a = false) (hc : isTerm c = true) :
    indexOfTerm (pre ++ c :: post) = some pre.length := by
  induction pre with
  | nil => simp [indexOfTerm, hc]
  | cons a t ih =>
    simp only [List.cons_append, indexOfTerm, List.append_eq]
    rw [if_neg (by rw [hpre a (List.mem_cons_self a t)]; exact Bool.false_ne_true)]
    rw [ih (fun x hx => hpre x (List.mem_cons_of_mem _ hx))]
    simp

/-- C6 counterexample: on an input whose first sentence terminator is
its very first character, the examined candidate is the whole raw text
(`end > 0` fails on line 333), not the trimmed prefix up to and
including the first terminator. -/
theorem firstCand_leading_terminator :
    firstCand (fromS "?abcdefg") = fromS "?abcdefg" ∧
      firstCand (fromS "?abcdefg") ≠ goTrim (List.take (0 + 1) (fromS "?abcdefg")) := by
  constructor
  · rfl
  · decide

/-- C6 (amended): when the first sentence terminator of the text sits
at a positive offset and is one of the one-byte terminators `.`, `!`,
`?` (for the three-byte `…` the Go slice keeps only its leading byte),
the Tier-2 candidate is exactly the trimmed prefix of the raw text up
to and including that terminator; a terminator at offset 0 instead
leaves the whole raw text as the candidate (see the counterexample). -/
theorem firstCand_after_terminator (pre post : GoStr) (c : Char)
    (hpre : ∀ a ∈ pre, isTerm a = false) (hc : isTerm c = true) (_hell : c ≠ '…')
    (hne : pre ≠ []) :
    firstCand (pre ++ c :: post) = goTrim (pre ++ [c]) := by
  unfold firstCand
  rw [indexOfTerm_append pre post c hpre hc]
  simp only
  rw [if_pos (List.length_pos.mpr hne)]
  have htake : (pre ++ c :: post).take (pre.length + 1) = pre ++ [c] := by
    rw [List.take_append 1]
    rfl
  rw [htake]

/-- C6 amended-claim witness at a concrete input. -/
theorem firstCand_after_terminator_witness :
    firstCand (fromS "Hello world" ++ '.' :: fromS " And more") =
      goTrim (fromS "Hello world" ++ ['.']) :=
  firstCand_after_terminator (fromS "Hello world") (fromS " And more") '.'
    (by decide) (by decide) (by decide) (by decide)

/-! ## C1: `heuristicSummarize` is total and never empty -/

theorem heuristicSummarize_has_nonspace (text : GoStr) :
    ∃ c, c ∈ heuristicSummarize text ∧ isSpaceGo c = false := by
  unfold heuristicSummarize
  split
  · exact ⟨'И', by decide, by decide⟩
  · cases htier : tier1 (goToLower text) with
    | some m =>
      dsimp only
      have hm : m = fromS "Маркетплейс: товары от разных продавцов." ∨
          m = fromS "Маркетплейс: Яндекс Маркет (онлайн‑покупки)." ∨
          m = fromS "Интернет‑магазин (каталог товаров, покупки онлайн)." ∨
          m = fromS "Доставка готовой еды." ∨
          m = fromS "Сайт компании‑услугодателя." := by
        unfold tier1 at htier
        split_ifs at htier <;> simp only [Option.some.injEq] at htier <;> tauto
      rcases hm with rfl | rfl | rfl | rfl | rfl
      · exact ⟨'М', by decide, by decide⟩
      · exact ⟨'М', by decide, by decide⟩
      · exact ⟨'И', by decide, by decide⟩
      · exact ⟨'Д', by decide, by decide⟩
      · exact ⟨'С', by decide, by decide⟩
    | none =>
      simp only
      split
      · exact ⟨'К', List.mem_append_left _ (by decide), by decide⟩
      · cases hfind : (splitSentences text).find? (fun s => !isNoisySent s) with
        | some s => exact ⟨'К', List.mem_append_left _ (by decide), by decide⟩
        | none =>
          simp only
          exact ⟨'К', List.mem_append_left _ (by decide), by decide⟩

/-- C1: `heuristicSummarize` is a total function returning a non-empty
string on every input, including the empty and all-white inputs. -/
theorem heuristicSummarize_ne_nil (text : GoStr) : heuristicSummarize text ≠ [] := by
  obtain ⟨c, hc, _⟩ := heuristicSummarize_has_nonspace text
  exact List.ne_nil_of_mem hc

theorem goTrim_heuristicSummarize_ne_nil (text : GoStr) :
    goTrim (heuristicSummarize text) ≠ [] := by
  obtain ⟨c, hc, hs⟩ := heuristicSummarize_has_nonspace text
  exact trim_ne_nil_of_mem hc hs

/-! ## C2: AI failure on the normal path falls back to the heuristic -/

/-- C2: after a successful fetch, whenever the trimmed extracted text
reaches the 40-byte significance threshold and the AI call of the
normal path fails (error, timeout, no choices, empty content) or
returns a summary that is blank after trimming, the response carries
`source = "heuristic"` and a non-empty summary.  (With `useAI = false`
the AI outcome is not consulted and the conclusion holds as well.) -/
theorem handlerAfterFetch_heuristic_on_ai_failure
    (doc? : Option Doc) (fdoc? : Option FDoc) (hostname host : GoStr) (useAI : Bool)
    (shortAI longAI : Option (GoStr × List GoStr × List GoStr))
    (hai : aiFailedOrBlank longAI = true)
    (hlen : 40 ≤ goLen (goTrim (extractVisibleText doc?))) :
    (handlerAfterFetch doc? fdoc? hostname host useAI shortAI longAI).source =
        fromS "heuristic" ∧
      (handlerAfterFetch doc? fdoc? hostname host useAI shortAI longAI).summary ≠ [] := by
  unfold handlerAfterFetch
  simp only
  rw [if_neg (by omega)]
  have hsum := goTrim_heuristicSummarize_ne_nil (extractVisibleText doc?)
  have hne : heuristicSummarize (extractVisibleText doc?) ≠ [] := by
    obtain ⟨c, hc, _⟩ := heuristicSummarize_has_nonspace (extractVisibleText doc?)
    exact List.ne_nil_of_mem hc
  cases useAI with
  | false =>
    rw [if_neg Bool.false_ne_true]
    dsimp only
    rw [if_neg hsum]
    exact ⟨rfl, hne⟩
  | true =>
    rw [if_pos rfl]
    cases longAI with
    | none =>
      dsimp only
      rw [if_neg hsum]
      exact ⟨rfl, hne⟩
    | some trip =>
      obtain ⟨s0, kk, nn⟩ := trip
      have hblank : goTrim s0 = [] := by
        simpa [aiFailedOrBlank] using hai
      dsimp only
      rw [if_pos hblank]
      dsimp only
      rw [if_neg hsum]
      exact ⟨rfl, hne⟩

/-- Concrete document for the C2 witness: a single noise-free title
long enough to clear the 40-byte threshold. -/
def docC2 : Doc :=
  { title := fromS "The quick brown fox jumps over the lazy dog through fog"
    metas := [], elems := [] }

/-- C2 witness at a concrete input: AI enabled, AI call failed. -/
theorem handlerAfterFetch_heuristic_on_ai_failure_witness :
    (handlerAfterFetch (some docC2) none [] [] true none none).source = fromS "heuristic" ∧
      (handlerAfterFetch (some docC2) none [] [] true none none).summary ≠ [] :=
  handlerAfterFetch_heuristic_on_ai_failure (some docC2) none [] [] true none none
    (by decide) (by decide)

/-! ## C7: the noisy-sentence test measures bytes, not characters -/

theorem utf8Size_of_le_127 (c : Char) (h : c.toNat ≤ 127) : c.utf8Size = 1 := by
  unfold Char.utf8Size
  rw [if_pos]
  show c.val ≤ _
  rw [UInt32.le_def, BitVec.le_def]
  exact h

theorem utf8Size_of_le_2047 (c : Char) (h1 : 128 ≤ c.toNat) (h2 : c.toNat ≤ 2047) :
    c.utf8Size = 2 := by
  unfold Char.utf8Size
  rw [if_neg, if_pos]
  · show c.val ≤ _
    rw [UInt32.le_def, BitVec.le_def]
    exact h2
  · show ¬ c.val ≤ _
    rw [UInt32.le_def, BitVec.le_def]
    show ¬ (c.toNat ≤ 127)
    omega

theorem utf8Size_lowerChar (c : Char) : (lowerChar c).utf8Size = c.utf8Size := by
  unfold lowerChar
  split_ifs with h1 h2 h3
  · have ht : (Char.ofNat (c.toNat + 32)).toNat = c.toNat + 32 :=
      toNat_charOfNat _ (by omega)
    rw [utf8Size_of_le_127 _ (by omega), utf8Size_of_le_127 _ (by omega)]
  · have ht : (Char.ofNat (c.toNat + 32)).toNat = c.toNat + 32 :=
      toNat_charOfNat _ (by omega)
    rw [utf8Size_of_le_2047 _ (by omega) (by omega), utf8Size_of_le_2047 _ (by omega) (by omega)]
  · have ht : (Char.ofNat 1105).toNat = 1105 := toNat_charOfNat _ (by omega)
    rw [utf8Size_of_le_2047 _ (by omega) (by omega), utf8Size_of_le_2047 _ (by omega) (by omega)]
  · rfl

theorem goLen_goToLower (s : GoStr) : goLen (goToLower s) = goLen s := by
  induction s with
  | nil => rfl
  | cons c t ih =>
    simp only [goToLower, List.map_cons, goLen, List.sum_cons] at ih ⊢
    rw [utf8Size_lowerChar, ih]

/-- C7 counterexample: a candidate whose trimmed length is 18
characters — below the claimed 30-character lower bound — is
nevertheless accepted, because the window of lines 324–326 measures
Go's `len`, i.e. UTF-8 bytes (34 here), not characters. -/
theorem isNoisySent_accepts_short_chars :
    isNoisySent (fromS "доставка пиццы тут") = false ∧
      (goTrim (fromS "доставка пиццы тут")).length < 30 := by
  constructor
  · decide
  · decide

/-- C7 (amended): the noisy-sentence test accepts a candidate exactly
when it is non-empty after trimming, its lower-cased trimmed form
contains none of `{`, `}`, `widgets`, and its UTF-8 byte length after
trimming lies in the window [30, 220] (lower-casing preserves the byte
length on the modelled alphabets).  In particular rejection below 30
and above 220 is byte-wise, not character-wise. -/
theorem isNoisySent_false_iff (s : GoStr) :
    isNoisySent s = false ↔
      (goTrim s ≠ [] ∧
       containsSub (goToLower (goTrim s)) (fromS "\x7b") = false ∧
       containsSub (goToLower (goTrim s)) (fromS "\x7d") = false ∧
       containsSub (goToLower (goTrim s)) (fromS "widgets") = false ∧
       30 ≤ goLen (goTrim s) ∧ goLen (goTrim s) ≤ 220) := by
  have hnil : (goToLower (goTrim s) = []) ↔ goTrim s = [] := by
    simp [goToLower]
  have hlen : goLen (goToLower (goTrim s)) = goLen (goTrim s) := goLen_goToLower _
  unfold isNoisySent
  simp only
  split_ifs with h1 h2 h3
  · simp only [Bool.true_eq_false, false_iff]
    intro hcon
    exact hcon.1 (hnil.mp h1)
  · simp only [Bool.true_eq_false, false_iff]
    rcases Bool.or_eq_true_iff.mp h2 with h | h
    · rcases Bool.or_eq_true_iff.mp h with h | h
      · exact fun hcon => by rw [hcon.2.1] at h; cases h
      · exact fun hcon => by rw [hcon.2.2.1] at h; cases h
    · exact fun hcon => by rw [hcon.2.2.2.1] at h; cases h
  · simp only [Bool.true_eq_false, false_iff]
    rcases Bool.or_eq_true_iff.mp h3 with h | h
    · have := of_decide_eq_true h
      omega
    · have := of_decide_eq_true h
      omega
  · simp only [eq_self_iff_true, true_iff]
    have h2f := h2
    simp only [Bool.or_eq_true, not_or] at h2f
    have h3f := h3
    simp only [Bool.or_eq_true, not_or, decide_eq_true_eq, not_lt] at h3f
    refine ⟨fun hn => h1 (hnil.mpr hn), ?_, ?_, ?_, ?_, ?_⟩
    · exact Bool.eq_false_iff.mpr h2f.1.1
    · exact Bool.eq_false_iff.mpr h2f.1.2
    · exact Bool.eq_false_iff.mpr h2f.2
    · omega
    · omega

/-! ## C9: the letter-density rule -/

theorem lowerChar_space_iff (c : Char) : lowerChar c = ' ' ↔ c = ' ' := by
  have hsp : (' ').toNat = 32 := rfl
  unfold lowerChar
  split_ifs with h1 h2 h3
  · constructor
    · intro h
      exfalso
      have ht := congrArg Char.toNat h
      rw [toNat_charOfNat _ (by omega), hsp] at ht
      omega
    · intro h
      subst h
      exact absurd h1 (by decide)
  · constructor
    · intro h
      exfalso
      have ht := congrArg Char.toNat h
      rw [toNat_charOfNat _ (by omega), hsp] at ht
      omega
    · intro h
      subst h
      exact absurd h2 (by decide)
  · constructor
    · intro h
      exfalso
      have ht := congrArg Char.toNat h
      rw [toNat_charOfNat _ (by omega), hsp] at ht
      omega
    · intro h
      subst h
      exact absurd h3 (by decide)
  · exact Iff.rfl

theorem foldl_densityStep (l : GoStr) : ∀ a b : Nat,
    l.foldl densityStep (a, b) =
      (a + (l.filter (fun c => !letterLC c && decide (c ≠ ' '))).length,
       b + (l.filter letterLC).length) := by
  induction l with
  | nil => intro a b; simp
  | cons c t ih =>
    intro a b
    simp only [List.foldl_cons]
    by_cases hc : (97 ≤ c.toNat ∧ c.toNat ≤ 122) ∨ (1072 ≤ c.toNat ∧ c.toNat ≤ 1103) ∨
        c.toNat = 1105
    · have hl : letterLC c = true := by simp [letterLC, hc]
      have hstep : densityStep (a, b) c = (a, b + 1) := by simp [densityStep, hc]
      have hp : (!letterLC c && decide (c ≠ ' ')) = false := by rw [hl]; rfl
      rw [hstep, ih, List.filter_cons, List.filter_cons, hp, hl]
      simp [Prod.ext_iff]
      omega
    · have hl : letterLC c = false := by simp [letterLC, hc]
      by_cases hspc : c = ' '
      · have hstep : densityStep (a, b) c = (a, b) := by
          simp [densityStep, hc, hspc]
        have hp : (!letterLC c && decide (c ≠ ' ')) = false := by
          subst hspc
          simp
        rw [hstep, ih, List.filter_cons, List.filter_cons, hp, hl]
        simp
      · have hstep : densityStep (a, b) c = (a + 1, b) := by
          simp [densityStep, hc, hspc]
        have hp : (!letterLC c && decide (c ≠ ' ')) = true := by
          simp [hl, hspc]
        rw [hstep, ih, List.filter_cons, List.filter_cons, hp, hl]
        simp [Prod.ext_iff]
        omega

/-- C9: the letter-density rule fires on a fragment exactly when,
counting letters case-insensitively (`a`–`z`, `а`–`я`, `ё`) and every
other non-space character as a non-letter, the fragment has at least
one letter and the ratio non-letters/(letters+1) exceeds 7/10; a
fragment with no letters is never marked noisy by this rule. -/
theorem densityNoisy_iff (s : GoStr) :
    densityNoisy (goToLower s) = true ↔
      0 < lettersCI s ∧
        (7 : ℚ) / 10 < (nonSpaceNonLetterCI s : ℚ) / ((lettersCI s : ℚ) + 1) := by
  have hfilter1 :
      ((s.map lowerChar).filter (fun c => !letterLC c && decide (c ≠ ' '))).length =
        nonSpaceNonLetterCI s := by
    rw [List.filter_map, List.length_map]
    unfold nonSpaceNonLetterCI
    congr 1
    apply List.filter_congr
    intro c _
    simp only [Function.comp]
    congr 1
    exact decide_eq_decide.mpr (not_congr (lowerChar_space_iff c))
  have hfilter2 : ((s.map lowerChar).filter letterLC).length = lettersCI s := by
    rw [List.filter_map, List.length_map]
    rfl
  unfold densityNoisy goToLower
  simp only [decide_eq_true_eq]
  rw [foldl_densityStep, hfilter1, hfilter2]
  simp only [Nat.zero_add]
  apply and_congr_right
  intro hb
  rw [div_lt_div_iff₀ (by norm_num) (by positivity)]
  constructor
  · intro h
    have hq : ((7 * (lettersCI s + 1) : ℕ) : ℚ) < ((10 * nonSpaceNonLetterCI s : ℕ) : ℚ) := by
      exact_mod_cast h
    push_cast at hq
    linarith
  · intro h
    have hq : ((7 * (lettersCI s + 1) : ℕ) : ℚ) < ((10 * nonSpaceNonLetterCI s : ℕ) : ℚ) := by
      push_cast
      linarith
    exact_mod_cast hq
